import Mathlib

/-!
Verification of the CumulusCI `Deploy` task family
(`cumulusci/tasks/salesforce/Deploy.py`): option validation, package file
selection, the namespace rewriting pipeline, static resource bundling,
manifest editing, and the sharing recalculation polling protocol of
`DeployAndWaitForSharingRecalculation`.

The Python code is shallowly embedded: each relevant method becomes a Lean
definition over explicit data (option records, directory listings, archives,
audit trail logs).  External collaborators (the SOQL query engine, the
`cumulusci.utils` text rewriters) are modelled from the query strings the
code builds and from the documented contract of the helpers.
-/

set_option autoImplicit false

namespace Deploy

/-- Python truthiness of an optional string option, as used by
`self.options.get(...)` guards in `Deploy.py`: `None` and the empty string
are falsy, every other string is truthy. -/
def strOptTruthy : Option String → Bool
  | none => false
  | some s => !(s == "")

/-- The valid `test_level` values, from the list literal in
`Deploy._init_options`. -/
def valid_test_levels : List String :=
  ["NoTestRun", "RunLocalTests", "RunAllTestsInOrg", "RunSpecifiedTests"]

/-- Embeds `Deploy._init_options` (the `test_level` / `specified_tests`
validation part).  `test_level` is `self.options.get("test_level")`
(`none` when the option is absent) and `specified_tests` is the processed
list (empty when absent).  The first failing check raises
`TaskOptionsError`; we return the error message.  Python:

    if self.test_level and self.test_level not in [...]:
        raise TaskOptionsError(...)
    if bool(self.specified_tests) != (self.test_level == "RunSpecifiedTests"):
        raise TaskOptionsError(...)
-/
def init_options (test_level : Option String) (specified_tests : List String) :
    Except String Unit :=
  if strOptTruthy test_level && !(valid_test_levels.contains (test_level.getD "")) then
    Except.error ("Specified test run level " ++ test_level.getD "" ++ " is not valid.")
  else if (!specified_tests.isEmpty) != (test_level == some "RunSpecifiedTests") then
    Except.error
      "The specified_tests option and test_level RunSpecifiedTests must be used together."
  else
    Except.ok ()

/-- Whether `init_options` raised a `TaskOptionsError`. -/
def init_options_raises (test_level : Option String) (specified_tests : List String) :
    Bool :=
  match init_options test_level specified_tests with
  | Except.error _ => true
  | Except.ok _ => false

/-- Embeds `Deploy._include_directory`.  `root_parts` is the list of path
components of the walked directory relative to the package root (`[]` for
the root itself).  Python:

    return len(root_parts) == 0 or root_parts[0] != "lwc" or len(root_parts) == 2
-/
def include_directory (root_parts : List String) : Bool :=
  root_parts.length == 0 || !(root_parts.headD "" == "lwc") || root_parts.length == 2

/-- ASCII lowering of a string, embedding Python `str.lower()` for the
ASCII file names this task handles. -/
def str_lower (s : String) : String :=
  ⟨s.data.map Char.toLower⟩

/-- Embeds Python `str.endswith` for a single suffix: the character list of
`suffix` is a suffix of the character list of `s`. -/
def ends_with (s suffix : String) : Bool :=
  suffix.data.isSuffixOf s.data

/-- Embeds `Deploy._include_file`.  Python:

    if len(root_parts) == 2 and root_parts[0] == "lwc":
        lower_f = f.lower()
        return lower_f.endswith((".js", ".js-meta.xml", ".html", ".css", ".svg"))
    return True
-/
def include_file (root_parts : List String) (f : String) : Bool :=
  if root_parts.length == 2 && root_parts.headD "" == "lwc" then
    let lower_f := str_lower f
    ends_with lower_f ".js" || ends_with lower_f ".js-meta.xml" ||
      ends_with lower_f ".html" || ends_with lower_f ".css" ||
      ends_with lower_f ".svg"
  else true

/-- One directory visited by `os.walk(".")`: its path components relative to
the walk root (corresponding to `root.split(os.sep)[1:]`) and the plain
file names directly inside it. -/
structure WalkDir where
  root_parts : List String
  files : List String
  deriving DecidableEq, Repr

/-- Embeds `Deploy._get_files_to_package`: for every walked directory that
`_include_directory` accepts, yield every file that `_include_file` accepts,
identified here by (directory components, file name). -/
def get_files_to_package (walk : List WalkDir) : List (List String × String) :=
  walk.flatMap fun d =>
    if include_directory d.root_parts then
      (d.files.filter (include_file d.root_parts)).map fun f => (d.root_parts, f)
    else []

/-- One rewriting pass applied by `Deploy._process_namespace`, carrying the
arguments bound by the corresponding `functools.partial` call. -/
inductive NamespacePass where
  | tokenize (ns : String)
  | inject (ns : String) (managed : Bool) (namespaced_org : Bool)
  | strip (ns : String)
  deriving DecidableEq, Repr

/-- Rank of a pass in the fixed source order of `_process_namespace`:
tokenize, then inject, then strip. -/
def NamespacePass.rank : NamespacePass → Nat
  | .tokenize _ => 0
  | .inject _ _ _ => 1
  | .strip _ => 2

def NamespacePass.isTokenize : NamespacePass → Bool
  | .tokenize _ => true
  | _ => false

def NamespacePass.isInject : NamespacePass → Bool
  | .inject _ _ _ => true
  | _ => false

def NamespacePass.isStrip : NamespacePass → Bool
  | .strip _ => true
  | _ => false

/-- The options consulted by `Deploy._process_namespace`.  `none` models an
absent option. -/
structure NamespaceOptions where
  namespace_tokenize : Option String
  namespace_inject : Option String
  namespace_strip : Option String
  unmanaged : Option Bool
  namespaced_org : Option Bool
  deriving DecidableEq, Repr

/-- Embeds `managed = not process_bool_arg(self.options.get("unmanaged", True))`
from `Deploy._process_namespace` (line 166): the `unmanaged` option defaults
to `True` when absent. -/
def process_namespace_managed_flag (unmanaged : Option Bool) : Bool :=
  !(unmanaged.getD true)

/-- Embeds `Deploy._process_namespace` as the sequence of rewriting passes it
applies to the archive, in source order.  Each `if self.options.get(...)`
guard contributes its pass exactly when the option is truthy; the three `if`
blocks are independent statements, not an `if/elif` chain. -/
def process_namespace_passes (o : NamespaceOptions) : List NamespacePass :=
  (if strOptTruthy o.namespace_tokenize then
    [NamespacePass.tokenize (o.namespace_tokenize.getD "")]
  else []) ++
  (if strOptTruthy o.namespace_inject then
    [NamespacePass.inject (o.namespace_inject.getD "")
      (process_namespace_managed_flag o.unmanaged) (o.namespaced_org.getD false)]
  else []) ++
  (if strOptTruthy o.namespace_strip then
    [NamespacePass.strip (o.namespace_strip.getD "")]
  else [])

/-- A fragment of text (file content or file name) fed to the namespace
rewriters, with the placeholder tokens made explicit: `namespaceToken`
stands for `%%%NAMESPACE%%%` / `___NAMESPACE___` and `namespacedOrgToken`
for `%%%NAMESPACED_ORG%%%` / `___NAMESPACED_ORG___`. -/
inductive TextToken where
  | lit (s : String)
  | namespaceToken
  | namespacedOrgToken
  deriving DecidableEq, Repr

/-- Modelled from the spec: `inject_namespace` from `cumulusci.utils` is not
under `src/`.  Spec 4.3: in managed mode, placeholder tokens become
`<namespace>__` and the special markers become the namespace when the
namespaced-org flag is set, otherwise the empty string; in unmanaged mode,
tokens and markers are all replaced with the empty string. -/
def inject_token (ns : String) (managed namespaced_org : Bool) :
    TextToken → String
  | .lit s => s
  | .namespaceToken => if managed then ns ++ "__" else ""
  | .namespacedOrgToken =>
    if managed then (if namespaced_org then ns else "") else ""

/-- Modelled from the spec: the inject pass applied to a tokenized text. -/
def inject_namespace (ns : String) (managed namespaced_org : Bool)
    (content : List TextToken) : String :=
  String.join (content.map (inject_token ns managed namespaced_org))

/-- Erases every placeholder token to the empty string, keeping only the
literal text. -/
def erase_tokens (content : List TextToken) : String :=
  String.join (content.map fun t =>
    match t with
    | TextToken.lit s => s
    | _ => "")

/-- An XML element of the parsed `package.xml` manifest, as handled through
`cumulusci.utils.xml.metadata_tree`: a tag, optional text, and ordered
children. -/
inductive MetadataElement where
  | node (tag : String) (text : Option String) (children : List MetadataElement)

def MetadataElement.tag : MetadataElement → String
  | .node t _ _ => t

def MetadataElement.text : MetadataElement → Option String
  | .node _ x _ => x

def MetadataElement.children : MetadataElement → List MetadataElement
  | .node _ _ c => c

def MetadataElement.withChildren : MetadataElement → List MetadataElement →
    MetadataElement
  | .node t x _, cs => .node t x cs

/-- Embeds `element.find(tag)` of `metadata_tree`: the first direct child
with the given tag. -/
def MetadataElement.find (e : MetadataElement) (t : String) :
    Option MetadataElement :=
  e.children.find? fun c => c.tag == t

/-- Whether a direct child of the manifest matches
`Package.findall("types", name="StaticResource")`: tag `types` with a `name`
child whose text is `StaticResource`. -/
def types_is_static_resource (e : MetadataElement) : Bool :=
  e.tag == "types" &&
    (match e.find "name" with
     | some n => n.text == some "StaticResource"
     | none => false)

/-- Embeds `section.insert_before(section.find("name"), tag=..., text=...)`:
the new element is placed immediately before the first child whose tag is
`markerTag`.  `metadata_tree` raises when the marker is absent; every
section this development inserts into has a `name` child, and in that
degenerate case we append at the end. -/
def insert_before_tag (markerTag : String) (newElem : MetadataElement) :
    List MetadataElement → List MetadataElement
  | [] => [newElem]
  | c :: rest =>
    if c.tag == markerTag then newElem :: c :: rest
    else c :: insert_before_tag markerTag newElem rest

/-- The `members` leaf inserted for one bundle name. -/
def member_node (name : String) : MetadataElement :=
  MetadataElement.node "members" (some name) []

/-- Embeds the `for name in bundles: section.insert_before(...)` loop of
`Deploy._process_static_resources`. -/
def add_members (sec : MetadataElement) (bundles : List String) :
    MetadataElement :=
  bundles.foldl
    (fun s n => s.withChildren (insert_before_tag "name" (member_node n) s.children))
    sec

/-- Replaces the first child satisfying `p` by its image under `f`,
modelling the in-place mutation of `sections[0]` in the manifest tree. -/
def replace_first (p : MetadataElement → Bool)
    (f : MetadataElement → MetadataElement) :
    List MetadataElement → List MetadataElement
  | [] => []
  | c :: rest => if p c then f c :: rest else c :: replace_first p f rest

/-- The fresh section built by `Package.append("types")` followed by
`section.append("name", text="StaticResource")`. -/
def static_resource_section : MetadataElement :=
  MetadataElement.node "types" none
    [MetadataElement.node "name" (some "StaticResource") []]

/-- Embeds the manifest-update tail of `Deploy._process_static_resources`
(lines 255-264): reuse the first existing StaticResource `types` section or
append a fresh one, then insert one `members` node per bundle before the
section's `name` child. -/
def update_package_xml (pkg : MetadataElement) (bundles : List String) :
    MetadataElement :=
  if pkg.children.any types_is_static_resource then
    pkg.withChildren
      (replace_first types_is_static_resource (fun s => add_members s bundles)
        pkg.children)
  else
    pkg.withChildren
      (pkg.children ++ [add_members static_resource_section bundles])

/-- Content of one archive entry.  `nestedArchive files` stands for the
bytes of the nested zip built from the listed files (one `.resource`
bundle); `xml` for a parsed XML body such as the manifest. -/
inductive Content where
  | bytes (s : String)
  | nestedArchive (files : List String)
  | xml (t : MetadataElement)

/-- An in-memory zip archive: ordered entries of name and content. -/
abbrev Archive := List (String × Content)

/-- One entry of `os.listdir` on the static resource root: a plain file with
its bytes, or a subdirectory with the relative paths of all files
recursively under it (in the order `_get_static_resource_files` walks
them). -/
inductive DirEntry where
  | file (name : String) (content : String)
  | dir (name : String) (files : List String)
  deriving DecidableEq, Repr

/-- Reads a plain file of the resource root by name, embedding
`open(os.path.join(path, meta_name), "rb")`; `none` models the
`FileNotFoundError` of a missing descriptor. -/
def find_root_file : List DirEntry → String → Option String
  | [], _ => none
  | DirEntry.file n c :: rest, name =>
    if n == name then some c else find_root_file rest name
  | DirEntry.dir _ _ :: rest, name => find_root_file rest name

/-- Embeds the bundling loop of `Deploy._process_static_resources` (lines
229-253): walk the resource root listing in order, skip non-directories,
and for each subdirectory read its sibling `<name>.resource-meta.xml`
descriptor (error when missing) and emit the descriptor entry followed by
the nested-archive entry; also collect the bundle names in order. -/
def build_bundles (root : List DirEntry) :
    List DirEntry → Except String (List (String × Content) × List String)
  | [] => Except.ok ([], [])
  | DirEntry.file _ _ :: rest => build_bundles root rest
  | DirEntry.dir n fs :: rest =>
    match find_root_file root (n ++ ".resource-meta.xml") with
    | none =>
      Except.error ("No such file or directory: " ++ n ++ ".resource-meta.xml")
    | some meta =>
      match build_bundles root rest with
      | Except.error e => Except.error e
      | Except.ok (entries, bundles) =>
        Except.ok
          (("staticresources/" ++ n ++ ".resource-meta.xml", Content.bytes meta) ::
            ("staticresources/" ++ n ++ ".resource", Content.nestedArchive fs) ::
            entries,
          n :: bundles)

/-- The `package.xml` handle captured during the copy loop: the last entry
named `package.xml` (each loop iteration reassigns it). -/
def find_package_xml (zip_src : Archive) : Option Content :=
  (zip_src.reverse.find? fun e => e.1 == "package.xml").map (·.2)

/-- Embeds `metadata_tree.parse`: succeeds on XML content, fails on
anything else. -/
def metadata_tree_parse : Content → Except String MetadataElement
  | Content.xml t => Except.ok t
  | _ => Except.error "metadata_tree.parse: malformed manifest"

/-- Embeds `Deploy._process_static_resources`.  `static_resource_root` is
`none` when the option is unset or the path does not exist (the method then
returns its input archive unchanged); otherwise it is the listing of the
resource root.  The copy loop drops `package.xml` and keeps every other
entry verbatim; the bundling loop appends two entries per subdirectory; the
rewritten manifest is written last. -/
def process_static_resources (static_resource_root : Option (List DirEntry))
    (zip_src : Archive) : Except String Archive :=
  match static_resource_root with
  | none => Except.ok zip_src
  | some root =>
    let copied := zip_src.filter fun e => !(e.1 == "package.xml")
    match build_bundles root root with
    | Except.error e => Except.error e
    | Except.ok (entries, bundles) =>
      match find_package_xml zip_src with
      | none => Except.error "NameError: name package_xml is not defined"
      | some pkgContent =>
        match metadata_tree_parse pkgContent with
        | Except.error e => Except.error e
        | Except.ok pkg =>
          Except.ok (copied ++ entries ++
            [("package.xml", Content.xml (update_package_xml pkg bundles))])

/-- The entries the bundling loop is expected to add: exactly two per
directory child (descriptor first), none for plain files, in listing
order.  Used to state what `build_bundles` produces. -/
def expected_bundle_entries (root : List DirEntry) :
    List DirEntry → List (String × Content)
  | [] => []
  | DirEntry.file _ _ :: rest => expected_bundle_entries root rest
  | DirEntry.dir n fs :: rest =>
    match find_root_file root (n ++ ".resource-meta.xml") with
    | some m =>
      ("staticresources/" ++ n ++ ".resource-meta.xml", Content.bytes m) ::
        ("staticresources/" ++ n ++ ".resource", Content.nestedArchive fs) ::
        expected_bundle_entries root rest
    | none => expected_bundle_entries root rest

/-- The subdirectory names of a listing, in listing (discovery) order. -/
def dir_names : List DirEntry → List String
  | [] => []
  | DirEntry.file _ _ :: rest => dir_names rest
  | DirEntry.dir n _ :: rest => n :: dir_names rest

end Deploy

namespace DeployAndWaitForSharingRecalculation

/-- One `SetupAuditTrail` record as the queries project it.  `CreatedDate`
is modelled as a natural timestamp. -/
structure AuditRecord where
  Action : String
  Section : String
  CreatedDate : Nat
  deriving DecidableEq, Repr

/-- Newest-first comparison used by `ORDER BY CreatedDate DESC`. -/
def newest_first (a b : AuditRecord) : Prop :=
  b.CreatedDate ≤ a.CreatedDate

instance : DecidableRel newest_first := fun a b =>
  Nat.decLe b.CreatedDate a.CreatedDate

/-- Insertion step of a newest-first sort. -/
def insert_desc (r : AuditRecord) : List AuditRecord → List AuditRecord
  | [] => [r]
  | x :: xs =>
    if x.CreatedDate < r.CreatedDate then r :: x :: xs else x :: insert_desc r xs

/-- Newest-first ordering of a record list, modelling
`ORDER BY CreatedDate DESC`. -/
def sort_desc (l : List AuditRecord) : List AuditRecord :=
  l.foldr insert_desc []

/-- Embeds `_get_last_setup_audit_trail_created_date`: the `CreatedDate` of
the single record of `SELECT CreatedDate FROM SetupAuditTrail ORDER BY
CreatedDate DESC LIMIT 1`, or `None` when the log is empty. -/
def get_last_setup_audit_trail_created_date (log : List AuditRecord) :
    Option Nat :=
  ((sort_desc log).head?).map (·.CreatedDate)

/-- Embeds `_get_sharing_recalculation_query`: the SOQL text built from the
baseline. -/
def get_sharing_recalculation_query (baseline : Option Nat) : String :=
  match baseline with
  | some d =>
    "SELECT Action, Section FROM SetupAuditTrail WHERE CreatedDate > " ++
      toString d ++ " ORDER BY CreatedDate DESC"
  | none => "SELECT Action, Section FROM SetupAuditTrail ORDER BY CreatedDate DESC"

/-- Modelled from the spec: the external log-query collaborator (spec 6)
evaluating the text built by `get_sharing_recalculation_query` against the
audit log: the `WHERE CreatedDate > d` clause keeps records strictly newer
than the baseline, and `ORDER BY CreatedDate DESC` returns them newest
first. -/
def run_sharing_recalculation_query (baseline : Option Nat)
    (log : List AuditRecord) : List AuditRecord :=
  match baseline with
  | some d => sort_desc (log.filter fun r => d < r.CreatedDate)
  | none => sort_desc log

/-- Embeds `_is_sharing_recalcuation_started` (source spelling): some
queried record has Section 'Sharing Defaults' and Action
'owdUpdateStarted'. -/
def is_sharing_recalcuation_started (baseline : Option Nat)
    (log : List AuditRecord) : Bool :=
  (run_sharing_recalculation_query baseline log).any fun r =>
    r.Section == "Sharing Defaults" && r.Action == "owdUpdateStarted"

/-- Embeds `_is_sharing_recalcuation_finished`: some queried record has
Section 'Sharing Defaults' and Action 'owdUpdateFinished'. -/
def is_sharing_recalcuation_finished (baseline : Option Nat)
    (log : List AuditRecord) : Bool :=
  (run_sharing_recalculation_query baseline log).any fun r =>
    r.Section == "Sharing Defaults" && r.Action == "owdUpdateFinished"

/-- The `SharingRecalculationTimeout` message, from
`"Sharing recalculation did not finish after {timeout} seconds"`. -/
def timeout_message (timeout : Nat) : String :=
  "Sharing recalculation did not finish after " ++ toString timeout ++ " seconds"

/-- Embeds `_poll_action`: first compare elapsed wall-clock seconds
(`now - time_start`) against the timeout and raise
`SharingRecalculationTimeout` when exceeded; otherwise report whether the
finish marker is visible (setting `poll_complete`). -/
def poll_action (time_start now timeout : Nat) (baseline : Option Nat)
    (log : List AuditRecord) : Except String Bool :=
  if timeout < now - time_start then Except.error (timeout_message timeout)
  else Except.ok (is_sharing_recalcuation_finished baseline log)

/-- Outcome of the poll loop over a finite trace of observations. -/
inductive PollResult where
  | finished
  | timedOut (msg : String)
  | exhausted
  deriving DecidableEq, Repr

/-- Modelled from the spec: `BaseTask._poll` is not under `src/`; per spec
4.7/5 it re-runs `_poll_action` on a fixed cadence until `poll_complete` is
set or an exception is raised.  Each tick is one observation of the clock
and the audit log; `exhausted` means the finite trace ended while the loop
was still waiting. -/
def poll (time_start timeout : Nat) (baseline : Option Nat) :
    List (Nat × List AuditRecord) → PollResult
  | [] => PollResult.exhausted
  | (now, log) :: rest =>
    match poll_action time_start now timeout baseline log with
    | Except.error msg => PollResult.timedOut msg
    | Except.ok true => PollResult.finished
    | Except.ok false => poll time_start timeout baseline rest

/-- The attributes the `Deploy` and `DeployAndWaitForSharingRecalculation`
class bodies in `src` define.  Python resolves `self.log_title` against
these: `_log_title` is defined (and used for the other two titles), bare
`log_title` is not. -/
def deploy_and_wait_attributes : List String :=
  ["api_class", "task_options", "namespaces", "_init_options", "_get_api",
    "_include_directory", "_include_file", "_get_files_to_package",
    "_get_static_resource_files", "_get_package_zip", "_process_zip_file",
    "_process_namespace", "_process_meta_xml", "_process_static_resources",
    "freeze", "_get_last_setup_audit_trail_created_date", "_log_title",
    "_run_task", "_get_sharing_recalculation_query",
    "_is_sharing_recalcuation_started", "_is_sharing_recalcuation_finished",
    "_poll_action"]

/-- Outcome of `_run_task`. -/
inductive RunResult where
  | finished
  | skippedNotice (msg : String)
  | attributeError (name : String)
  | timedOut (msg : String)
  | pollExhausted
  deriving DecidableEq, Repr

/-- Embeds `DeployAndWaitForSharingRecalculation._run_task`.  `time_start`
is captured before the deploy runs; the baseline comes from the pre-deploy
log `log_before`; the start check queries the post-deploy log `log_after`;
`ticks` are the poll-loop observations.  On the no-start branch the source
executes `self.log_title(...)`, which Python resolves against the
attributes the classes define. -/
def run_task (timeout time_start : Nat) (log_before log_after : List AuditRecord)
    (ticks : List (Nat × List AuditRecord)) : RunResult :=
  let baseline := get_last_setup_audit_trail_created_date log_before
  if is_sharing_recalcuation_started baseline log_after then
    match poll time_start timeout baseline ticks with
    | PollResult.finished => RunResult.finished
    | PollResult.timedOut msg => RunResult.timedOut msg
    | PollResult.exhausted => RunResult.pollExhausted
  else if deploy_and_wait_attributes.contains "log_title" then
    RunResult.skippedNotice "Skipping check for sharing recalculation"
  else
    RunResult.attributeError "log_title"

end DeployAndWaitForSharingRecalculation

namespace Deploy

/-- C3 helper: the disjunction the claim states. -/
def c3_error_condition (test_level : Option String) (specified_tests : List String) :
    Prop :=
  (strOptTruthy test_level = true ∧ test_level.getD "" ∉ valid_test_levels) ∨
    (specified_tests ≠ [] ∧ test_level ≠ some "RunSpecifiedTests") ∨
    (test_level = some "RunSpecifiedTests" ∧ specified_tests = [])

/-- C3: option initialization raises a `TaskOptionsError` if and only if
`test_level` is set (truthy) to a value outside
{NoTestRun, RunLocalTests, RunAllTestsInOrg, RunSpecifiedTests}, or
`specified_tests` is non-empty while `test_level` is not RunSpecifiedTests,
or `test_level` is RunSpecifiedTests while `specified_tests` is empty.
The check happens in `_init_options`, before any build work. -/
theorem init_options_raises_iff (test_level : Option String)
    (specified_tests : List String) :
    init_options_raises test_level specified_tests = true ↔
      c3_error_condition test_level specified_tests := by
  unfold init_options_raises init_options c3_error_condition
  rcases test_level with _ | tl
  · simp [strOptTruthy]
    rcases specified_tests with _ | ⟨t, ts⟩ <;> simp
  · by_cases htl : tl = ""
    · subst htl
      simp [strOptTruthy, valid_test_levels]
      rcases specified_tests with _ | ⟨t, ts⟩ <;> simp
    · by_cases hvalid : valid_test_levels.contains tl
      · have hmem : tl ∈ valid_test_levels := by
          simpa using hvalid
        simp [strOptTruthy, htl, hvalid, hmem]
        by_cases hrst : tl = "RunSpecifiedTests"
        · subst hrst
          rcases specified_tests with _ | ⟨t, ts⟩ <;> simp
        · rcases specified_tests with _ | ⟨t, ts⟩ <;> simp [hrst]
      · have hmem : tl ∉ valid_test_levels := by
          simpa using hvalid
        simp [strOptTruthy, htl, hvalid, hmem]

/-- A pair (directory components, file name) is produced by
`get_files_to_package` exactly when some walked directory carries it and both
inclusion predicates accept it. -/
theorem mem_get_files_to_package (walk : List WalkDir) (parts : List String)
    (f : String) :
    (parts, f) ∈ get_files_to_package walk ↔
      ∃ d ∈ walk, d.root_parts = parts ∧ f ∈ d.files ∧
        include_directory parts = true ∧ include_file parts f = true := by
  unfold get_files_to_package
  rw [List.mem_flatMap]
  constructor
  · rintro ⟨d, hd, hmem⟩
    by_cases hinc : include_directory d.root_parts
    · rw [if_pos hinc] at hmem
      obtain ⟨g, hg, heq⟩ := List.mem_map.mp hmem
      obtain ⟨hgf, hgi⟩ := List.mem_filter.mp hg
      obtain ⟨h1, h2⟩ := Prod.mk.injEq _ _ _ _ ▸ heq
      subst h1; subst h2
      exact ⟨d, hd, rfl, hgf, hinc, hgi⟩
    · rw [if_neg hinc] at hmem
      exact absurd hmem (List.not_mem_nil _)
  · rintro ⟨d, hd, rfl, hf, hinc, hif⟩
    refine ⟨d, hd, ?_⟩
    rw [if_pos hinc]
    exact List.mem_map_of_mem _ (List.mem_filter.mpr ⟨hf, hif⟩)

/-- C4: the walk includes a directory exactly when it is the root, or its
first component is not "lwc", or its relative path has exactly two
components; consequently files under "lwc" deeper than the per-component
bundle directory are never selected. -/
theorem include_directory_characterization (parts : List String) (f : String)
    (walk : List WalkDir) :
    (include_directory parts = true ↔
      parts = [] ∨ parts.headD "" ≠ "lwc" ∨ parts.length = 2) ∧
    (parts.headD "" = "lwc" → 2 < parts.length →
      (parts, f) ∉ get_files_to_package walk) := by
  have hchar : include_directory parts = true ↔
      parts = [] ∨ parts.headD "" ≠ "lwc" ∨ parts.length = 2 := by
    simp [include_directory, List.length_eq_zero]
    tauto
  refine ⟨hchar, ?_⟩
  intro hlwc hlen hmem
  obtain ⟨d, _, _, _, hinc, _⟩ := (mem_get_files_to_package walk parts f).mp hmem
  rcases hchar.mp hinc with hnil | hhead | htwo
  · subst hnil; simp at hlen
  · exact hhead hlwc
  · omega

/-- C4 witness: a file three levels under "lwc" is never packaged. -/
theorem include_directory_characterization_witness :
    (["lwc", "cmp", "sub"] : List String).headD "" = "lwc" ∧
    2 < (["lwc", "cmp", "sub"] : List String).length ∧
    (((["lwc", "cmp", "sub"] : List String), "x.js") ∉
      get_files_to_package [⟨["lwc", "cmp", "sub"], ["x.js"]⟩]) :=
  ⟨rfl, by decide,
    (include_directory_characterization ["lwc", "cmp", "sub"] "x.js"
      [⟨["lwc", "cmp", "sub"], ["x.js"]⟩]).2 rfl (by decide)⟩

/-- C5: a file directly inside an lwc per-component directory is selected
iff its (lowercased) name ends in .js, .js-meta.xml, .html, .css or .svg;
an unlisted extension such as .json is excluded; a file in any other
included directory is selected unconditionally. -/
theorem include_file_characterization (walk : List WalkDir) (d : WalkDir)
    (f : String) (hd : d ∈ walk) (hf : f ∈ d.files) :
    (d.root_parts.length = 2 → d.root_parts.headD "" = "lwc" →
      ((d.root_parts, f) ∈ get_files_to_package walk ↔
        (ends_with (str_lower f) ".js" || ends_with (str_lower f) ".js-meta.xml" ||
          ends_with (str_lower f) ".html" || ends_with (str_lower f) ".css" ||
          ends_with (str_lower f) ".svg") = true)) ∧
    (include_directory d.root_parts = true →
      ¬(d.root_parts.length = 2 ∧ d.root_parts.headD "" = "lwc") →
      (d.root_parts, f) ∈ get_files_to_package walk) ∧
    include_file ["lwc", "cmp"] "config.json" = false := by
  refine ⟨?_, ?_, by decide⟩
  · intro hlen hhead
    have hinc : include_directory d.root_parts = true := by
      unfold include_directory
      rw [hlen]
      simp
    have hcond : (d.root_parts.length == 2 &&
        (d.root_parts.headD "" == "lwc")) = true := by
      rw [hlen, hhead]
      decide
    have hfile : include_file d.root_parts f =
        (ends_with (str_lower f) ".js" || ends_with (str_lower f) ".js-meta.xml" ||
          ends_with (str_lower f) ".html" || ends_with (str_lower f) ".css" ||
          ends_with (str_lower f) ".svg") := by
      unfold include_file
      rw [if_pos hcond]
    rw [mem_get_files_to_package]
    constructor
    · rintro ⟨d', _, _, _, _, hif⟩
      rw [hfile] at hif
      exact hif
    · intro hext
      exact ⟨d, hd, rfl, hf, hinc, hfile ▸ hext⟩
  · intro hinc hnot
    refine (mem_get_files_to_package walk d.root_parts f).mpr
      ⟨d, hd, rfl, hf, hinc, ?_⟩
    unfold include_file
    rw [if_neg]
    intro h
    rw [Bool.and_eq_true] at h
    exact hnot ⟨eq_of_beq h.1, eq_of_beq h.2⟩

/-- C6 counterexample: with both namespace_inject and namespace_strip set,
`_process_namespace` runs both passes — they are not mutually exclusive. -/
theorem process_namespace_inject_and_strip_both_run :
    ((process_namespace_passes ⟨none, some "ns", some "ns", none, none⟩).any
      NamespacePass.isInject = true) ∧
    ((process_namespace_passes ⟨none, some "ns", some "ns", none, none⟩).any
      NamespacePass.isStrip = true) := by
  constructor <;> rfl

/-- C6 amended: the namespace passes run in the fixed order tokenize, then
inject, then strip; each pass runs exactly when its option is set (so
tokenize always precedes inject), but inject and strip are not mutually
exclusive — when both options are set, both passes run, inject first. -/
theorem process_namespace_pass_order (o : NamespaceOptions) :
    ((process_namespace_passes o).any NamespacePass.isTokenize =
      strOptTruthy o.namespace_tokenize) ∧
    ((process_namespace_passes o).any NamespacePass.isInject =
      strOptTruthy o.namespace_inject) ∧
    ((process_namespace_passes o).any NamespacePass.isStrip =
      strOptTruthy o.namespace_strip) ∧
    List.Pairwise (fun p q => NamespacePass.rank p < NamespacePass.rank q)
      (process_namespace_passes o) := by
  cases h1 : strOptTruthy o.namespace_tokenize <;>
    cases h2 : strOptTruthy o.namespace_inject <;>
      cases h3 : strOptTruthy o.namespace_strip <;>
        simp [process_namespace_passes, h1, h2, h3, NamespacePass.rank,
          NamespacePass.isTokenize, NamespacePass.isInject, NamespacePass.isStrip]

/-- C10: when `unmanaged` is absent it defaults to true, so the inject pass
runs in unmanaged mode and replaces namespace tokens and the special markers
with the empty string; managed injection happens only when `unmanaged` is
explicitly false. -/
theorem inject_defaults_to_unmanaged (ns : String) (namespaced_org : Bool)
    (b : Bool) (content : List TextToken) (o : NamespaceOptions) :
    process_namespace_managed_flag none = false ∧
    (process_namespace_managed_flag (some b) = true ↔ b = false) ∧
    inject_namespace ns (process_namespace_managed_flag none) namespaced_org
      content = erase_tokens content ∧
    (strOptTruthy o.namespace_inject = true → o.unmanaged = none →
      NamespacePass.inject (o.namespace_inject.getD "") false
        (o.namespaced_org.getD false) ∈ process_namespace_passes o) := by
  refine ⟨rfl, by cases b <;> simp [process_namespace_managed_flag], ?_, ?_⟩
  · unfold inject_namespace erase_tokens
    congr 1
    apply List.map_congr_left
    intro t _
    cases t <;> rfl
  · intro hinj hunm
    unfold process_namespace_passes
    rw [hinj]
    simp [process_namespace_managed_flag, hunm]

/-- C10 witness: with namespace_inject set and unmanaged absent, the pass
list contains an unmanaged (managed = false) inject pass, and that pass
erases all tokens from a sample text. -/
theorem inject_defaults_to_unmanaged_witness :
    inject_namespace "ns" (process_namespace_managed_flag none) false
      [TextToken.namespaceToken, TextToken.lit "Account",
        TextToken.namespacedOrgToken] = "Account" ∧
    NamespacePass.inject "ns" false false ∈
      process_namespace_passes ⟨none, some "ns", none, none, none⟩ := by
  have h := inject_defaults_to_unmanaged "ns" false false
    [TextToken.namespaceToken, TextToken.lit "Account",
      TextToken.namespacedOrgToken]
    ⟨none, some "ns", none, none, none⟩
  refine ⟨?_, h.2.2.2 rfl rfl⟩
  rw [h.2.2.1]
  rfl

/-- C5 witness: in an lwc component directory, foo.js is selected and
config.json is not. -/
theorem include_file_characterization_witness :
    ((["lwc", "cmp"] : List String), "foo.js") ∈
      get_files_to_package [⟨["lwc", "cmp"], ["foo.js", "config.json"]⟩] ∧
    include_file ["lwc", "cmp"] "config.json" = false := by
  have h := include_file_characterization
    [⟨["lwc", "cmp"], ["foo.js", "config.json"]⟩]
    ⟨["lwc", "cmp"], ["foo.js", "config.json"]⟩ "foo.js"
    (List.mem_singleton.mpr rfl) (by decide)
  exact ⟨(h.1 rfl rfl).mpr (by decide), h.2.2⟩

/-- When every directory child of the resource root has its descriptor, the
bundling loop succeeds and emits exactly two entries per directory child,
in listing order, together with the bundle names in listing order. -/
theorem build_bundles_ok (root : List DirEntry) (listing : List DirEntry)
    (h : ∀ n fs, DirEntry.dir n fs ∈ listing →
      (find_root_file root (n ++ ".resource-meta.xml")).isSome = true) :
    build_bundles root listing =
      Except.ok (expected_bundle_entries root listing, dir_names listing) := by
  induction listing with
  | nil => rfl
  | cons e rest ih =>
    cases e with
    | file n c =>
      simp only [build_bundles, expected_bundle_entries, dir_names]
      exact ih fun n' fs' hm => h n' fs' (List.mem_cons_of_mem _ hm)
    | dir n fs =>
      have hs := h n fs (List.mem_cons_self _ _)
      obtain ⟨m, hm⟩ := Option.isSome_iff_exists.mp hs
      rw [build_bundles, hm,
        ih fun n' fs' hm' => h n' fs' (List.mem_cons_of_mem _ hm')]
      simp only [expected_bundle_entries, dir_names, hm]

/-- When some directory child of the resource root lacks its descriptor,
the bundling loop fails. -/
theorem build_bundles_error (root : List DirEntry) (listing : List DirEntry)
    (h : ∃ n fs, DirEntry.dir n fs ∈ listing ∧
      find_root_file root (n ++ ".resource-meta.xml") = none) :
    ∃ msg, build_bundles root listing = Except.error msg := by
  induction listing with
  | nil =>
    obtain ⟨n, fs, hm, _⟩ := h
    exact absurd hm (List.not_mem_nil _)
  | cons e rest ih =>
    obtain ⟨n, fs, hm, hnone⟩ := h
    cases e with
    | file n' c' =>
      have hrest : DirEntry.dir n fs ∈ rest := by
        rcases List.mem_cons.mp hm with heq | hm'
        · exact absurd heq (by simp)
        · exact hm'
      obtain ⟨msg, hmsg⟩ := ih ⟨n, fs, hrest, hnone⟩
      exact ⟨msg, by simp only [build_bundles]; exact hmsg⟩
    | dir n' fs' =>
      by_cases hfind : find_root_file root (n' ++ ".resource-meta.xml") = none
      · exact ⟨_, by rw [build_bundles, hfind]⟩
      · obtain ⟨m, hm'⟩ := Option.ne_none_iff_exists'.mp hfind
        have hrest : DirEntry.dir n fs ∈ rest := by
          rcases List.mem_cons.mp hm with heq | h'
          · obtain ⟨h1, h2⟩ := DirEntry.dir.injEq _ _ _ _ ▸ heq
            subst h1; subst h2
            rw [hnone] at hm'
            cases hm'
          · exact h'
        obtain ⟨msg, hmsg⟩ := ih ⟨n, fs, hrest, hnone⟩
        refine ⟨msg, ?_⟩
        rw [build_bundles, hm', hmsg]

/-- C7: with a configured, existing static resource path, every input entry
except the manifest is copied verbatim, each directory child of the
resource root (non-directories are skipped) contributes exactly two new
entries — the descriptor at staticresources/name.resource-meta.xml and the
nested archive of its files at staticresources/name.resource — and a
missing descriptor is a fatal error. -/
theorem process_static_resources_spec (root : List DirEntry)
    (zip_src : Archive) :
    (∀ pkg : MetadataElement,
      (∀ n fs, DirEntry.dir n fs ∈ root →
        (find_root_file root (n ++ ".resource-meta.xml")).isSome = true) →
      find_package_xml zip_src = some (Content.xml pkg) →
      process_static_resources (some root) zip_src =
        Except.ok ((zip_src.filter fun e => !(e.1 == "package.xml")) ++
          expected_bundle_entries root root ++
          [("package.xml",
            Content.xml (update_package_xml pkg (dir_names root)))])) ∧
    ((∃ n fs, DirEntry.dir n fs ∈ root ∧
        find_root_file root (n ++ ".resource-meta.xml") = none) →
      ∃ msg, process_static_resources (some root) zip_src = Except.error msg) := by
  constructor
  · intro pkg hdesc hpkg
    rw [process_static_resources, build_bundles_ok root root hdesc, hpkg]
    rfl
  · intro hmiss
    obtain ⟨msg, hmsg⟩ := build_bundles_error root root hmiss
    exact ⟨msg, by rw [process_static_resources, hmsg]⟩

/-- C7 witness: one directory child A with its descriptor present, plus one
other entry, produce the copied entry, the two bundle entries for A, and
the rewritten manifest; a root whose directory child B has no descriptor is
a fatal error. -/
theorem process_static_resources_spec_witness :
    process_static_resources
        (some [DirEntry.dir "A" ["f.txt"],
          DirEntry.file "A.resource-meta.xml" "meta"])
        [("package.xml", Content.xml (MetadataElement.node "Package" none [])),
          ("classes/Foo.cls", Content.bytes "x")] =
      Except.ok
        ([("classes/Foo.cls", Content.bytes "x")] ++
          [("staticresources/A.resource-meta.xml", Content.bytes "meta"),
            ("staticresources/A.resource", Content.nestedArchive ["f.txt"])] ++
          [("package.xml",
            Content.xml (update_package_xml
              (MetadataElement.node "Package" none []) ["A"]))]) ∧
    (∃ msg, process_static_resources (some [DirEntry.dir "B" []]) [] =
      Except.error msg) := by
  constructor
  · have h := (process_static_resources_spec
      [DirEntry.dir "A" ["f.txt"], DirEntry.file "A.resource-meta.xml" "meta"]
      [("package.xml", Content.xml (MetadataElement.node "Package" none [])),
        ("classes/Foo.cls", Content.bytes "x")]).1
      (MetadataElement.node "Package" none [])
      (by
        intro n fs hm
        simp only [List.mem_cons, List.not_mem_nil, or_false] at hm
        rcases hm with h1 | h2
        · obtain ⟨hn, hfs⟩ := DirEntry.dir.injEq _ _ _ _ ▸ h1
          subst hn
          rfl
        · cases h2)
      rfl
    exact h
  · exact (process_static_resources_spec [DirEntry.dir "B" []] []).2
      ⟨"B", [], List.mem_singleton.mpr rfl, rfl⟩

/-- The first child with tag `name` in a list that starts with name-free
elements is the explicit `name` element. -/
theorem find_name_append (spre spost : List MetadataElement)
    (nm : MetadataElement) (hpre : ∀ c ∈ spre, c.tag ≠ "name")
    (hnm : nm.tag = "name") :
    List.find? (fun c => c.tag == "name") (spre ++ nm :: spost) = some nm := by
  induction spre with
  | nil =>
    simp only [List.nil_append, List.find?_cons]
    rw [hnm]
    rfl
  | cons c rest ih =>
    have hc : (c.tag == "name") = false := by
      simpa using hpre c (List.mem_cons_self _ _)
    simp only [List.cons_append, List.find?_cons, hc]
    exact ih fun c' hc' => hpre c' (List.mem_cons_of_mem _ hc')

/-- Inserting before the `name` marker lands immediately before the first
`name` child. -/
theorem insert_before_name (spre spost : List MetadataElement)
    (nm newElem : MetadataElement) (hpre : ∀ c ∈ spre, c.tag ≠ "name")
    (hnm : nm.tag = "name") :
    insert_before_tag "name" newElem (spre ++ nm :: spost) =
      spre ++ newElem :: nm :: spost := by
  induction spre with
  | nil =>
    simp only [List.nil_append, insert_before_tag]
    rw [hnm]
    rfl
  | cons c rest ih =>
    have hc : (c.tag == "name") = false := by
      simpa using hpre c (List.mem_cons_self _ _)
    simp only [List.cons_append, insert_before_tag, hc, Bool.false_eq_true,
      if_false, List.append_eq]
    rw [ih fun c' hc' => hpre c' (List.mem_cons_of_mem _ hc')]

/-- The member-insertion loop inserts one `members` node per bundle, all
immediately before the `name` child, in bundle order. -/
theorem add_members_eq (t : String) (x : Option String)
    (spre spost : List MetadataElement) (nm : MetadataElement)
    (bundles : List String) (hpre : ∀ c ∈ spre, c.tag ≠ "name")
    (hnm : nm.tag = "name") :
    add_members (MetadataElement.node t x (spre ++ nm :: spost)) bundles =
      MetadataElement.node t x
        (spre ++ bundles.map member_node ++ nm :: spost) := by
  induction bundles generalizing spre with
  | nil => simp [add_members]
  | cons b bs ih =>
    have hstep :
        add_members (MetadataElement.node t x (spre ++ nm :: spost)) (b :: bs) =
          add_members
            (MetadataElement.node t x ((spre ++ [member_node b]) ++ nm :: spost))
            bs := by
      simp only [add_members, List.foldl_cons, MetadataElement.children,
        MetadataElement.withChildren,
        insert_before_name spre spost nm (member_node b) hpre hnm,
        List.append_assoc, List.singleton_append]
    have hpre' : ∀ c ∈ spre ++ [member_node b], c.tag ≠ "name" := by
      intro c hc
      rcases List.mem_append.mp hc with h1 | h2
      · exact hpre c h1
      · rw [List.mem_singleton.mp h2]
        intro hcontra
        exact absurd hcontra (by simp [member_node, MetadataElement.tag])
    rw [hstep, ih (spre ++ [member_node b]) hpre']
    simp [List.append_assoc]

/-- Replacing the first matching child walks past the non-matching ones. -/
theorem replace_first_append (cpre : List MetadataElement)
    (c : MetadataElement) (cpost : List MetadataElement)
    (p : MetadataElement → Bool) (f : MetadataElement → MetadataElement)
    (hpre : ∀ x ∈ cpre, p x = false) (hc : p c = true) :
    replace_first p f (cpre ++ c :: cpost) = cpre ++ f c :: cpost := by
  induction cpre with
  | nil =>
    simp only [List.nil_append, replace_first, hc, if_true]
  | cons d rest ih =>
    have hd : p d = false := hpre d (List.mem_cons_self _ _)
    simp only [List.cons_append, replace_first, hd, Bool.false_eq_true,
      if_false, List.append_eq]
    rw [ih fun x hx => hpre x (List.mem_cons_of_mem _ hx)]

/-- C8: the manifest editor reuses the first existing StaticResource types
section (or appends a fresh one with a name child) and inserts one members
node per bundle immediately before the section's name child, so the members
appear in forward bundle order, all before the name node. -/
theorem update_package_xml_spec (ptag : String) (ptext sx : Option String)
    (cpre cpost spre spost : List MetadataElement) (bundles : List String)
    (hcpre : ∀ y ∈ cpre, types_is_static_resource y = false)
    (hspre : ∀ c ∈ spre, c.tag ≠ "name") :
    (update_package_xml
        (MetadataElement.node ptag ptext
          (cpre ++ MetadataElement.node "types" sx
            (spre ++ MetadataElement.node "name" (some "StaticResource") [] ::
              spost) :: cpost))
        bundles =
      MetadataElement.node ptag ptext
        (cpre ++ MetadataElement.node "types" sx
          (spre ++ bundles.map member_node ++
            MetadataElement.node "name" (some "StaticResource") [] :: spost) ::
          cpost)) ∧
    (update_package_xml (MetadataElement.node ptag ptext cpre) bundles =
      MetadataElement.node ptag ptext
        (cpre ++ [MetadataElement.node "types" none
          (bundles.map member_node ++
            [MetadataElement.node "name" (some "StaticResource") []])])) := by
  have hnmtag :
      (MetadataElement.node "name" (some "StaticResource")
        ([] : List MetadataElement)).tag = "name" := rfl
  have hanyc : cpre.any types_is_static_resource = false := by
    rw [List.any_eq_false]
    intro y hy
    rw [hcpre y hy]
    exact Bool.false_ne_true
  constructor
  · have hsec : types_is_static_resource
        (MetadataElement.node "types" sx
          (spre ++ MetadataElement.node "name" (some "StaticResource") [] ::
            spost)) = true := by
      unfold types_is_static_resource MetadataElement.find
      rw [MetadataElement.children,
        find_name_append spre spost _ hspre hnmtag]
      rfl
    have hany : (cpre ++ MetadataElement.node "types" sx
        (spre ++ MetadataElement.node "name" (some "StaticResource") [] ::
          spost) :: cpost).any types_is_static_resource = true := by
      rw [List.any_append, List.any_cons, hsec]
      simp
    rw [update_package_xml, MetadataElement.children, if_pos hany,
      replace_first_append cpre _ cpost _ _ hcpre hsec,
      add_members_eq "types" sx spre spost _ bundles hspre hnmtag]
    rfl
  · rw [update_package_xml, MetadataElement.children, if_neg (by rw [hanyc]; exact Bool.false_ne_true)]
    have : add_members static_resource_section bundles =
        MetadataElement.node "types" none
          (bundles.map member_node ++
            [MetadataElement.node "name" (some "StaticResource") []]) := by
      have h := add_members_eq "types" none [] []
        (MetadataElement.node "name" (some "StaticResource") []) bundles
        (by intro c hc; cases hc) hnmtag
      simpa [static_resource_section] using h
    rw [MetadataElement.withChildren, this]

/-- C8 witness: bundles A then B produce members A then B, immediately
before the name child, both when a StaticResource section exists and when
one is created. -/
theorem update_package_xml_spec_witness :
    (update_package_xml
        (MetadataElement.node "Package" none
          [MetadataElement.node "types" none
            [MetadataElement.node "name" (some "StaticResource") []]])
        ["A", "B"] =
      MetadataElement.node "Package" none
        [MetadataElement.node "types" none
          [member_node "A", member_node "B",
            MetadataElement.node "name" (some "StaticResource") []]]) ∧
    (update_package_xml (MetadataElement.node "Package" none []) ["A", "B"] =
      MetadataElement.node "Package" none
        [MetadataElement.node "types" none
          [member_node "A", member_node "B",
            MetadataElement.node "name" (some "StaticResource") []]]) := by
  have h := update_package_xml_spec "Package" none none [] [] [] [] ["A", "B"]
    (by intro y hy; cases hy) (by intro c hc; cases hc)
  exact ⟨h.1, h.2⟩

end Deploy

namespace DeployAndWaitForSharingRecalculation

/-- Inserting a record into a list is a permutation of consing it. -/
theorem insert_desc_perm (r : AuditRecord) (l : List AuditRecord) :
    (insert_desc r l).Perm (r :: l) := by
  induction l with
  | nil => exact List.Perm.refl _
  | cons x xs ih =>
    by_cases h : x.CreatedDate < r.CreatedDate
    · rw [insert_desc, if_pos h]
    · rw [insert_desc, if_neg h]
      exact (ih.cons x).trans (List.Perm.swap r x xs)

/-- The newest-first sort is a permutation of its input. -/
theorem sort_desc_perm (l : List AuditRecord) : (sort_desc l).Perm l := by
  induction l with
  | nil => exact List.Perm.refl _
  | cons x xs ih =>
    exact (insert_desc_perm x (sort_desc xs)).trans (ih.cons x)

/-- Insertion preserves the newest-first ordering. -/
theorem pairwise_insert_desc (r : AuditRecord) (l : List AuditRecord)
    (h : List.Pairwise newest_first l) :
    List.Pairwise newest_first (insert_desc r l) := by
  induction l with
  | nil =>
    rw [insert_desc]
    exact List.pairwise_singleton _ _
  | cons x xs ih =>
    rw [List.pairwise_cons] at h
    obtain ⟨hx, hxs⟩ := h
    by_cases hlt : x.CreatedDate < r.CreatedDate
    · rw [insert_desc, if_pos hlt, List.pairwise_cons]
      refine ⟨?_, List.pairwise_cons.mpr ⟨hx, hxs⟩⟩
      intro y hy
      rcases List.mem_cons.mp hy with rfl | hmem
      · exact Nat.le_of_lt hlt
      · exact Nat.le_trans (hx y hmem) (Nat.le_of_lt hlt)
    · rw [insert_desc, if_neg hlt, List.pairwise_cons]
      refine ⟨?_, ih hxs⟩
      intro y hy
      have hy' : y ∈ r :: xs := (insert_desc_perm r xs).mem_iff.mp hy
      rcases List.mem_cons.mp hy' with rfl | hmem
      · exact Nat.le_of_not_lt hlt
      · exact hx y hmem

/-- The query result ordering: newest first. -/
theorem sort_desc_sorted (l : List AuditRecord) :
    List.Pairwise newest_first (sort_desc l) := by
  induction l with
  | nil => exact List.Pairwise.nil
  | cons x xs ih => exact pairwise_insert_desc x (sort_desc xs) ih

/-- The head of the newest-first sort bounds every record of the list. -/
theorem head_sort_desc_max (l : List AuditRecord) (m : AuditRecord)
    (hm : (sort_desc l).head? = some m) :
    ∀ r ∈ l, r.CreatedDate ≤ m.CreatedDate := by
  intro r hr
  have hr' : r ∈ sort_desc l := (sort_desc_perm l).mem_iff.mpr hr
  have hs := sort_desc_sorted l
  cases hsd : sort_desc l with
  | nil =>
    rw [hsd] at hm
    cases hm
  | cons a as =>
    rw [hsd] at hm hr' hs
    have ham : a = m := by
      simp only [List.head?_cons, Option.some.injEq] at hm
      exact hm
    subst ham
    rw [List.pairwise_cons] at hs
    rcases List.mem_cons.mp hr' with rfl | hmem
    · exact Nat.le.refl
    · exact hs.1 r hmem

/-- C9: the completion-detection query keeps exactly the records strictly
newer than the baseline when one exists, all records when the baseline is
none, ordered newest first; the captured baseline is the most recent
timestamp of the pre-deploy log, or none exactly when that log is empty. -/
theorem sharing_recalculation_query_spec (log log_before : List AuditRecord)
    (baseline : Option Nat) :
    (∀ d, baseline = some d →
      (run_sharing_recalculation_query baseline log).Perm
        (log.filter fun r => d < r.CreatedDate)) ∧
    (baseline = none →
      (run_sharing_recalculation_query baseline log).Perm log) ∧
    List.Pairwise newest_first (run_sharing_recalculation_query baseline log) ∧
    (get_last_setup_audit_trail_created_date log_before = none ↔
      log_before = []) ∧
    (∀ m, get_last_setup_audit_trail_created_date log_before = some m →
      (∃ r ∈ log_before, r.CreatedDate = m) ∧
      ∀ r ∈ log_before, r.CreatedDate ≤ m) := by
  refine ⟨?_, ?_, ?_, ?_, ?_⟩
  · intro d hd
    subst hd
    exact sort_desc_perm _
  · intro hd
    subst hd
    exact sort_desc_perm _
  · cases baseline <;> exact sort_desc_sorted _
  · constructor
    · intro h
      cases hsd : sort_desc log_before with
      | nil =>
        have hperm := sort_desc_perm log_before
        rw [hsd] at hperm
        exact (hperm.symm).eq_nil
      | cons a as =>
        rw [get_last_setup_audit_trail_created_date, hsd] at h
        cases h
    · intro h
      subst h
      rfl
  · intro m hm
    rw [get_last_setup_audit_trail_created_date] at hm
    cases hsd : (sort_desc log_before).head? with
    | none =>
      rw [hsd] at hm
      cases hm
    | some r0 =>
      rw [hsd] at hm
      simp only [Option.map_some', Option.some.injEq] at hm
      have hr0 : r0 ∈ sort_desc log_before := by
        cases hsdl : sort_desc log_before with
        | nil => rw [hsdl] at hsd; cases hsd
        | cons a as =>
          rw [hsdl] at hsd
          simp only [List.head?_cons, Option.some.injEq] at hsd
          rw [hsd]
          exact List.mem_cons_self _ _
      constructor
      · exact ⟨r0, (sort_desc_perm log_before).mem_iff.mp hr0, hm⟩
      · intro r hr
        have := head_sort_desc_max log_before r0 hsd r hr
        rw [hm] at this
        exact this

/-- C9 witness: with baseline 5, only the record created at 7 survives the
filter; the baseline of a log with timestamps 3 and 7 is 7, an upper bound
of the log. -/
theorem sharing_recalculation_query_spec_witness :
    (run_sharing_recalculation_query (some 5)
        [⟨"a", "s", 3⟩, ⟨"b", "s", 7⟩]).Perm
      (([⟨"a", "s", 3⟩, ⟨"b", "s", 7⟩] : List AuditRecord).filter
        fun r => 5 < r.CreatedDate) ∧
    (∃ r ∈ ([⟨"a", "s", 3⟩, ⟨"b", "s", 7⟩] : List AuditRecord),
      r.CreatedDate = 7) ∧
    ∀ r ∈ ([⟨"a", "s", 3⟩, ⟨"b", "s", 7⟩] : List AuditRecord),
      r.CreatedDate ≤ 7 := by
  have h := sharing_recalculation_query_spec
    [⟨"a", "s", 3⟩, ⟨"b", "s", 7⟩] [⟨"a", "s", 3⟩, ⟨"b", "s", 7⟩] (some 5)
  have h5 := h.2.2.2.2 7 rfl
  exact ⟨h.1 5 rfl, h5.1, h5.2⟩

/-- C2: each poll tick first compares elapsed time (from before the deploy)
against the timeout: past the deadline it raises the timeout error naming
the configured duration, even when a finish marker is present; within the
deadline an observed finish marker ends the poll successfully.  The
run-level conjunct shows the deadline in a full run counts from the
task-start clock captured before the deploy. -/
theorem poll_action_spec (time_start now timeout : Nat)
    (baseline : Option Nat) (log : List AuditRecord) :
    (timeout < now - time_start →
      poll_action time_start now timeout baseline log =
        Except.error (timeout_message timeout)) ∧
    (timeout_message timeout =
      "Sharing recalculation did not finish after " ++ toString timeout ++
        " seconds") ∧
    (now - time_start ≤ timeout →
      poll_action time_start now timeout baseline log =
        Except.ok (is_sharing_recalcuation_finished baseline log)) ∧
    (∀ rest, timeout < now - time_start →
      poll time_start timeout baseline ((now, log) :: rest) =
        PollResult.timedOut (timeout_message timeout)) ∧
    (∀ rest, now - time_start ≤ timeout →
      is_sharing_recalcuation_finished baseline log = true →
      poll time_start timeout baseline ((now, log) :: rest) =
        PollResult.finished) ∧
    (∀ log_before log_after,
      is_sharing_recalcuation_started
        (get_last_setup_audit_trail_created_date log_before) log_after = true →
      timeout < now - time_start →
      run_task timeout time_start log_before log_after [(now, log)] =
        RunResult.timedOut (timeout_message timeout)) := by
  have hto : ∀ B : Option Nat, timeout < now - time_start →
      poll_action time_start now timeout B log =
        Except.error (timeout_message timeout) := by
    intro B h
    rw [poll_action, if_pos h]
  refine ⟨hto baseline, rfl, ?_, ?_, ?_, ?_⟩
  · intro h
    rw [poll_action, if_neg (Nat.not_lt.mpr h)]
  · intro rest h
    rw [poll, hto baseline h]
  · intro rest h hfin
    rw [poll, poll_action, if_neg (Nat.not_lt.mpr h), hfin]
  · intro log_before log_after hstart h
    rw [run_task]
    simp only [hstart, if_true]
    rw [poll, hto (get_last_setup_audit_trail_created_date log_before) h]

/-- C2 witness: with timeout 10 counted from second 0, a tick at second 11
times out with the message naming 10 seconds even though a finish marker is
visible, while a tick at second 5 with the marker finishes. -/
theorem poll_action_spec_witness :
    poll 0 10 none
        [(11, [⟨"owdUpdateFinished", "Sharing Defaults", 12⟩])] =
      PollResult.timedOut (timeout_message 10) ∧
    poll 0 10 none
        [(5, [⟨"owdUpdateFinished", "Sharing Defaults", 12⟩])] =
      PollResult.finished := by
  have h1 := (poll_action_spec 0 11 10 none
    [⟨"owdUpdateFinished", "Sharing Defaults", 12⟩]).2.2.2.1 [] (by decide)
  have h2 := (poll_action_spec 0 5 10 none
    [⟨"owdUpdateFinished", "Sharing Defaults", 12⟩]).2.2.2.2.1 []
    (by decide) rfl
  exact ⟨h1, h2⟩

/-- C1 (code bug): when the post-deploy query shows no start marker, the
source skips the polling loop but then executes `self.log_title(...)`; the
classes define `_log_title`, not `log_title`, so the run raises an
AttributeError instead of terminating successfully with the skip notice,
regardless of the configured timeout. -/
theorem run_task_no_start_attribute_error :
    is_sharing_recalcuation_started
      (get_last_setup_audit_trail_created_date []) [] = false ∧
    deploy_and_wait_attributes.contains "_log_title" = true ∧
    deploy_and_wait_attributes.contains "log_title" = false ∧
    ∀ timeout time_start : Nat,
      run_task timeout time_start [] [] [] =
        RunResult.attributeError "log_title" := by
  refine ⟨rfl, rfl, rfl, ?_⟩
  intro timeout time_start
  rfl

end DeployAndWaitForSharingRecalculation
